import Mathlib

/-!
Shallow embedding of `src/mihalcea.py` (OEIS Maximal Cliques of Authors from
Comments): the author extractor `parse_authors_from_comments`, the graph
builder `build_graph_from_directory`, the record loader `load_json`, and the
node/link graph codec, together with theorems settling the specified claims.

Strings are modelled as `List Char`; Python sets as `Finset`; the accumulated
networkx graph as a pair of finite sets (nodes, unordered edges).
-/

namespace Mihalcea

/-- Characters matched by the regex range `[A-Z]` (ASCII uppercase). -/
def isUpper (c : Char) : Bool :=
  decide (65 ≤ c.toNat) && decide (c.toNat ≤ 90)

/-- Characters matched by the negated class
`[^0-9+\(\)\[\]\{\}\\\/_:;""]` of `common_pattern` (line 66): everything
except digits and the listed punctuation/bracket characters (the doubled
quote in the source class is a single excluded character). -/
def inClass (c : Char) : Bool :=
  !((decide (48 ≤ c.toNat) && decide (c.toNat ≤ 57)) || c == '+' || c == '(' ||
    c == ')' || c == '[' || c == ']' || c == '{' || c == '}' || c == '\\' ||
    c == '/' || c == '_' || c == ':' || c == ';' || c == '"')

/-- The negative lookahead `(?!=[A-Z])` placed right after the initial
`[A-Z]`: it fails exactly when the following characters are a literal `=`
and then an uppercase letter. -/
def negLookEq (rest : List Char) : Bool :=
  match rest with
  | c1 :: c2 :: _ => !(c1 == '=' && isUpper c2)
  | _ => true

/-- Trailing lookahead `(?=_)` of the underscore-delimited branch. -/
def lookUnd : List Char → Bool
  | c :: _ => decide (c = '_')
  | [] => false

/-- Trailing lookahead `(?=\])` of the square-bracket branch. -/
def lookBrk : List Char → Bool
  | c :: _ => decide (c = ']')
  | [] => false

/-- Trailing lookahead `(?= \(|, )` of the dash-space branch: a space then
an opening parenthesis, or a comma then a space. -/
def lookDash : List Char → Bool
  | c :: d :: _ =>
    (decide (c = ' ') && decide (d = '(')) ||
      (decide (c = ',') && decide (d = ' '))
  | _ => false

/-- Trailing lookahead `(?=,)` of the open-parenthesis branch. -/
def lookPar : List Char → Bool
  | c :: _ => decide (c = ',')
  | [] => false

/-- Lazy repetition `[...]{2,}?` followed by a lookahead: consume characters
of the class, at least `need` of them (`need` starts at 2), stopping at the
first point where the lookahead `look` holds; `none` when no such point
exists. Mirrors how a backtracking engine expands a lazy quantifier. -/
def lazyRun (look : List Char → Bool) : Nat → List Char → Option (List Char)
  | need + 1, c :: rs =>
    if inClass c then (lazyRun look need rs).map (fun l => c :: l) else none
  | _ + 1, [] => none
  | 0, rest =>
    if look rest then some [] else
      match rest with
      | c :: rs =>
        if inClass c then (lazyRun look 0 rs).map (fun l => c :: l) else none
      | [] => none

/-- Body of `common_pattern` with a given trailing lookahead, tried at the
current position: an uppercase character, the negative lookahead
`(?!=[A-Z])`, then the lazy class repetition ended by `look`. Returns the
matched head character and the repetition body. -/
def tryBody (look : List Char → Bool) : List Char → Option (Char × List Char)
  | c :: rs =>
    if isUpper c && negLookEq rs then
      (lazyRun look 2 rs).map (fun body => (c, body))
    else none
  | [] => none

/-- Try the four alternation branches of the compiled pattern (line 67-68)
at the current position. `prev` is the reversed already-scanned prefix, used
for the lookbehinds `(?<=_)`, `(?<=\[)`, `(?<=- )`, `(?<=\()`; the four
lookbehinds end in pairwise distinct characters, so at most one branch can
apply at a position. -/
def matchAt (prev rest : List Char) : Option (Char × List Char) :=
  match prev with
  | '_' :: _ => tryBody lookUnd rest
  | '[' :: _ => tryBody lookBrk rest
  | ' ' :: '-' :: _ => tryBody lookDash rest
  | '(' :: _ => tryBody lookPar rest
  | _ => none

/-- Scanning loop of `re.findall`: try the pattern at each position from
left to right; on a match, emit it and resume right after it; otherwise
advance one character. `prev` is the reversed scanned prefix. The `fuel`
parameter only makes the recursion structural: every step consumes at
least one character of `rest`, so any `fuel ≥ rest.length` gives the same
result (`pyFindall` below supplies `rest.length`). -/
def findallAux : Nat → List Char → List Char → List (List Char)
  | 0, _, _ => []
  | _ + 1, _, [] => []
  | fuel + 1, prev, c :: rs =>
    match matchAt prev (c :: rs) with
    | some (m, body) =>
      (m :: body) ::
        findallAux fuel ((m :: body).reverse ++ prev) (rs.drop body.length)
    | none => findallAux fuel (c :: prev) rs

/-- Model of `re.findall(pattern, comment)` for the compiled pattern of
`parse_authors_from_comments` (lines 66-68): the list of matched
substrings, in scan order. -/
def pyFindall (s : List Char) : List (List Char) :=
  findallAux s.length [] s

/-- Model of Python `names.split(', ')` (line 75): split on non-overlapping
occurrences of the two-character separator comma-space, scanning left to
right; `acc` holds the reversed current segment. With fewer than two
characters left no separator can start, so the current segment is
closed. -/
def splitCS : List Char → List Char → List (List Char)
  | acc, [] => [acc.reverse]
  | acc, [c] => [(c :: acc).reverse]
  | acc, c :: d :: rs =>
    if c = ',' ∧ d = ' ' then acc.reverse :: splitCS [] rs
    else splitCS (c :: acc) (d :: rs)

/-- Authors contributed by one comment string: every regex match, split on
the comma-space separator (line 75 list comprehension). -/
def authorsOfComment (c : List Char) : List (List Char) :=
  (pyFindall c).flatMap (fun m => splitCS [] m)

/-- One entry of the `results` list of an OEIS record document: only its
optional `comment` field (a list of annotation strings) is consumed. -/
structure ResultEntry where
  comment : Option (List (List Char))

/-- A loaded OEIS record document: only its optional `results` field is
consumed (`raw_data.get('results')`). -/
structure RawData where
  results : Option (List ResultEntry)

/-- Python runtime errors that the unguarded document access can raise. -/
inductive PyError where
  /-- `NoneType` object is not subscriptable: `raw_data.get('results')[0]`
  when the `results` key is absent. -/
  | typeError
  /-- list index out of range: `raw_data.get('results')[0]` when `results`
  is present but an empty list. -/
  | indexError
deriving DecidableEq

/-- Model of `parse_authors_from_comments` (lines 47-77).
`raw_data.get('results')[0].get('comment')` raises a `TypeError` when
`results` is absent (`None[0]`) and an `IndexError` when it is an empty
list; otherwise the first entry's `comment` list is scanned. A missing or
empty `comment` makes the function return `None`; the caller only tests
truthiness, so both `None` and an empty author set are modelled as `∅`. -/
def parse_authors_from_comments (raw : RawData) :
    Except PyError (Finset (List Char)) :=
  match raw.results with
  | none => .error .typeError
  | some [] => .error .indexError
  | some (entry :: _) =>
    match entry.comment with
    | none => .ok ∅
    | some comments => .ok (comments.flatMap authorsOfComment).toFinset

/-- The accumulated networkx graph: a finite set of author nodes and a
finite set of unordered edges (a `networkx.Graph` is simple and
undirected; node and edge insertion are idempotent). -/
structure NxGraph where
  nodes : Finset (List Char)
  edges : Finset (Sym2 (List Char))

/-- Decidable equality of graphs, by comparing the two components (stated
so that kernel evaluation never rewrites data, only proofs). -/
instance : DecidableEq NxGraph := fun a b =>
  match a, b with
  | ⟨n1, e1⟩, ⟨n2, e2⟩ =>
    match decEq n1 n2, decEq e1 e2 with
    | isTrue h1, isTrue h2 => isTrue (by rw [h1, h2])
    | isFalse h1, _ => isFalse (fun hh => h1 (congrArg NxGraph.nodes hh))
    | _, isFalse h2 => isFalse (fun hh => h2 (congrArg NxGraph.edges hh))

/-- The graph `nx.Graph()` starts from (line 113). -/
def NxGraph.empty : NxGraph := ⟨∅, ∅⟩

/-- Model of `itertools.combinations(authors, 2)` over the author set
(line 125): the pairs of distinct members. Python emits each unordered pair
once in arbitrary set order; since the graph insertions below are
order-insensitive and symmetric, the pairs are modelled as the finite set
of ordered pairs with distinct components. -/
def combinations2 (A : Finset (List Char)) :
    Finset ((List Char) × (List Char)) :=
  (A ×ˢ A).filter (fun p => p.1 ≠ p.2)

/-- Model of `G.add_edges_from(es)` (line 125): each pair `(u, v)` adds the
endpoints `u` and `v` as nodes and the unordered edge `{u, v}`. -/
def add_edges_from (G : NxGraph)
    (es : Finset ((List Char) × (List Char))) : NxGraph :=
  { nodes := (G.nodes ∪ es.image Prod.fst) ∪ es.image Prod.snd
    edges := G.edges ∪ es.image Sym2.mk }

/-- The per-record fold of the builder loop (lines 122-125): the truthiness
guard `if authors:` followed by inserting every 2-combination of the
extracted author set. -/
def foldRecord (G : NxGraph) (authors : Finset (List Char)) : NxGraph :=
  if authors.Nonempty then add_edges_from G (combinations2 authors) else G

/-- The builder loop (lines 117-126) on the remaining records: extract the
authors of the next record and fold them into the accumulated graph; an
extraction error aborts the run (in Python the uncaught exception would
propagate out of the loop). -/
def buildLoop (G : NxGraph) : List RawData → Except PyError NxGraph
  | [] => .ok G
  | raw :: files =>
    match parse_authors_from_comments raw with
    | .ok authors => buildLoop (foldRecord G authors) files
    | .error e => .error e

/-- Model of `build_graph_from_directory` (lines 80-133) on the sequence
of record documents loaded from the directory listing, in processing
order: run the builder loop starting from the empty graph `nx.Graph()`.
(Directory enumeration, the `.json` extension filter and the progress bar
only select and report the record list; saving is modelled by the codec
below.) -/
def build_graph_from_directory (files : List RawData) :
    Except PyError NxGraph :=
  buildLoop NxGraph.empty files

/-- The clique edge set contributed by one author set: every unordered
pair of distinct members. -/
def cliqueEdges (A : Finset (List Char)) : Finset (Sym2 (List Char)) :=
  (combinations2 A).image Sym2.mk

/-- The nodes contributed by one author set: the endpoints of its clique
edges. -/
def cliqueNodes (A : Finset (List Char)) : Finset (List Char) :=
  (combinations2 A).image Prod.fst ∪ (combinations2 A).image Prod.snd

/-- The edge set one record contributes to the built graph. -/
def recordEdges (raw : RawData) : Finset (Sym2 (List Char)) :=
  match parse_authors_from_comments raw with
  | .ok A => if A.Nonempty then cliqueEdges A else ∅
  | .error _ => ∅

/-- The node set one record contributes to the built graph. -/
def recordNodes (raw : RawData) : Finset (List Char) :=
  match parse_authors_from_comments raw with
  | .ok A => if A.Nonempty then cliqueNodes A else ∅
  | .error _ => ∅

/-- Union of the per-file clique edge sets of a directory. -/
def bigEdges (files : List RawData) : Finset (Sym2 (List Char)) :=
  files.foldr (fun raw acc => recordEdges raw ∪ acc) ∅

/-- Union of the per-file clique node sets of a directory. -/
def bigNodes (files : List RawData) : Finset (List Char) :=
  files.foldr (fun raw acc => recordNodes raw ∪ acc) ∅

/-- Decidable equality for `Except`, used to evaluate builder runs on
concrete record lists. -/
instance {ε α : Type} [DecidableEq ε] [DecidableEq α] :
    DecidableEq (Except ε α) := fun a b =>
  match a, b with
  | .error e, .error f =>
    match decEq e f with
    | isTrue h => isTrue (by rw [h])
    | isFalse h => isFalse (fun hh => h (Except.error.inj hh))
  | .ok x, .ok y =>
    match decEq x y with
    | isTrue h => isTrue (by rw [h])
    | isFalse h => isFalse (fun hh => h (Except.ok.inj hh))
  | .error _, .ok _ => isFalse (fun hh => Except.noConfusion hh)
  | .ok _, .error _ => isFalse (fun hh => Except.noConfusion hh)

/-- Whether a string contains the separator comma-space, i.e. a comma
immediately followed by a space. -/
def hasCS : List Char → Bool
  | [] => false
  | [_] => false
  | c :: d :: rs => (decide (c = ',') && decide (d = ' ')) || hasCS (d :: rs)

/-- Join a list of segments back with the comma-space separator (the
left inverse of `splitCS`). -/
def joinCS : List (List Char) → List Char
  | [] => []
  | [t] => t
  | t :: ts => t ++ ',' :: ' ' :: joinCS ts

/-- A well-formed collaboration graph: every edge endpoint is a node.
Graphs produced by the builder have this property, and the spec's
`CollaborationGraph` (a set of nodes plus a set of unordered pairs over
them) assumes it. -/
def WFgraph (G : NxGraph) : Prop :=
  ∀ u v : List Char, s(u, v) ∈ G.edges → u ∈ G.nodes ∧ v ∈ G.nodes

/-- Modelled from the spec: the node/edge exchange document of the Graph
Codec (§4.4, §6), as produced by `nx.readwrite.json_graph.node_link_data`
and consumed by `node_link_graph` (lines 131 and 152; both functions live
in the networkx library, not in the repository). It carries an ordered
list of node identifiers and an ordered list of links, each link a
source/target pair of node identifiers. -/
structure NodeLinkDoc where
  nodes : List (List Char)
  links : List ((List Char) × (List Char))

/-- Modelled from the spec: a document is an encoding of graph `G` when
its node list lists exactly the node set of `G` and its link list exactly
the edge set of `G` (each edge under either orientation). Order and
duplication in the two lists are not semantically significant, so this
relation covers the document `node_link_data` actually emits as well as
any reordering or duplication of it. -/
def encodes (G : NxGraph) (d : NodeLinkDoc) : Prop :=
  d.nodes.toFinset = G.nodes ∧ (d.links.map Sym2.mk).toFinset = G.edges

/-- Modelled from the spec: `node_link_graph` decoding (§4.4) — start from
an empty graph, add every listed node, then add every listed link as an
edge together with its two endpoints (edge insertion is idempotent, the
graph being simple). -/
def node_link_graph (d : NodeLinkDoc) : NxGraph :=
  { nodes := d.nodes.toFinset ∪ (d.links.map Prod.fst).toFinset ∪
      (d.links.map Prod.snd).toFinset
    edges := (d.links.map Sym2.mk).toFinset }

/-- A Python exception as it is rendered in a printed traceback. -/
inductive PyExc where
  /-- `OSError` raised by a failed `open(file_path, 'r')`; its rendered
  message names the path, e.g.
  `FileNotFoundError: [Errno 2] No such file or directory: 'path'`. -/
  | osError (path : List Char)
  /-- `UnboundLocalError`: a local variable referenced before
  assignment. -/
  | unboundLocalError
deriving DecidableEq

/-- Process-level outcome of a `load_json` call (lines 30-34). -/
inductive LoadOutcome where
  /-- the file opened and parsed; the document is returned and the run
  continues. -/
  | ok (doc : RawData)
  /-- the call ends the run by an unhandled exception: the interpreter
  prints the traceback chain (listed here innermost first) as its
  diagnostic on stderr and terminates the process with exit status 1. -/
  | unhandled (chain : List PyExc)

/-- Model of `load_json` (lines 11-44) over an abstract file store mapping
each readable path to its parsed document (`print_content` only adds
logging and is omitted). On an unreadable path, `open` raises
`OSError(file_path)` and the `except OSError:` handler runs; its
`print('Could not open file:' + file + ', exiting program.')` reads the
local variable `file`, which the failed `open` never assigned (the path
lives in `file_path`), so the handler itself raises `UnboundLocalError`
chained onto the `OSError`, the intended message and the `sys.exit()` on
line 34 are never reached, and — no caller catching anything — the
interpreter aborts the run printing both exceptions of the chain. -/
def load_json (fs : List Char → Option RawData) (file_path : List Char) :
    LoadOutcome :=
  match fs file_path with
  | some doc => .ok doc
  | none => .unhandled [.osError file_path, .unboundLocalError]

/-- The exit status a `load_json` outcome forces on the process: `none`
when the run continues, and status `1` — CPython's status for a run
terminated by an unhandled exception — for the traceback abort. -/
def exitStatus : LoadOutcome → Option Nat
  | .ok _ => none
  | .unhandled _ => some 1

/-- Whether one rendered exception of a traceback names the given path. -/
def namesPath (e : PyExc) (p : List Char) : Bool :=
  match e with
  | .osError q => decide (q = p)
  | .unboundLocalError => false

/-- Shape of a token matched by `common_pattern`: an uppercase head
character followed by at least two more characters, none of them a digit
or one of the excluded punctuation/bracket characters — so every matched
token has length at least 3. -/
def tokenShape (m : List Char) : Prop :=
  ∃ c body, m = c :: body ∧ isUpper c = true ∧ 2 ≤ body.length ∧
    ∀ x ∈ body, inClass x = true

/-- The four textual contexts of the alternation (line 67), phrased on
the text surrounding a match: between a pair of underscores, between
square brackets, after dash-space and before space-parenthesis or
comma-space, or after an opening parenthesis and before a comma. -/
def contextEnds (pre post : List Char) : Prop :=
  ((∃ q, pre = q ++ ['_']) ∧ ∃ t, post = '_' :: t) ∨
  ((∃ q, pre = q ++ ['[']) ∧ ∃ t, post = ']' :: t) ∨
  ((∃ q, pre = q ++ ['-', ' ']) ∧
    ((∃ t, post = ' ' :: '(' :: t) ∨ ∃ t, post = ',' :: ' ' :: t)) ∨
  ((∃ q, pre = q ++ ['(']) ∧ ∃ t, post = ',' :: t)

/-! Auxiliary lemmas about the clique construction and the builder loop. -/

lemma mem_combinations2 {A : Finset (List Char)}
    {p : (List Char) × (List Char)} :
    p ∈ combinations2 A ↔ p.1 ∈ A ∧ p.2 ∈ A ∧ p.1 ≠ p.2 := by
  simp [combinations2, Finset.mem_filter, Finset.mem_product, and_assoc]

lemma mem_cliqueEdges {A : Finset (List Char)} {a b : List Char} :
    s(a, b) ∈ cliqueEdges A ↔ a ∈ A ∧ b ∈ A ∧ a ≠ b := by
  unfold cliqueEdges
  rw [Finset.mem_image]
  constructor
  · rintro ⟨p, hp, hpe⟩
    rw [mem_combinations2] at hp
    rcases Sym2.mk_eq_mk_iff.1 hpe with h | h <;> subst h
    · exact hp
    · exact ⟨hp.2.1, hp.1, Ne.symm hp.2.2⟩
  · rintro ⟨ha, hb, hab⟩
    exact ⟨(a, b), mem_combinations2.2 ⟨ha, hb, hab⟩, rfl⟩

lemma mem_cliqueNodes {A : Finset (List Char)} {v : List Char} :
    v ∈ cliqueNodes A ↔ v ∈ A ∧ ∃ w ∈ A, w ≠ v := by
  unfold cliqueNodes
  rw [Finset.mem_union, Finset.mem_image, Finset.mem_image]
  constructor
  · rintro (⟨⟨x, y⟩, hp, rfl⟩ | ⟨⟨x, y⟩, hp, rfl⟩) <;>
      rw [mem_combinations2] at hp
    · exact ⟨hp.1, y, hp.2.1, Ne.symm hp.2.2⟩
    · exact ⟨hp.2.1, x, hp.1, hp.2.2⟩
  · rintro ⟨hv, w, hw, hwv⟩
    exact Or.inl ⟨(v, w), mem_combinations2.2 ⟨hv, hw, Ne.symm hwv⟩, rfl⟩

lemma combinations2_eq_offDiag (A : Finset (List Char)) :
    combinations2 A = A.offDiag := by
  ext p
  rw [mem_combinations2, Finset.mem_offDiag]

lemma cliqueEdges_card (A : Finset (List Char)) :
    (cliqueEdges A).card = A.card.choose 2 := by
  rw [cliqueEdges, combinations2_eq_offDiag]
  exact Sym2.card_image_offDiag A

lemma cliqueEdges_empty : cliqueEdges (∅ : Finset (List Char)) = ∅ := by
  ext e
  induction e using Sym2.inductionOn with
  | hf a b => simp [mem_cliqueEdges]

lemma cliqueNodes_empty : cliqueNodes (∅ : Finset (List Char)) = ∅ := by
  ext v
  simp [mem_cliqueNodes]

lemma foldRecord_edges (G : NxGraph) (A : Finset (List Char)) :
    (foldRecord G A).edges = G.edges ∪ cliqueEdges A := by
  by_cases h : A.Nonempty
  · simp [foldRecord, h, add_edges_from, cliqueEdges]
  · rw [Finset.not_nonempty_iff_eq_empty] at h
    subst h
    simp [foldRecord, cliqueEdges_empty]

lemma foldRecord_nodes (G : NxGraph) (A : Finset (List Char)) :
    (foldRecord G A).nodes = G.nodes ∪ cliqueNodes A := by
  by_cases h : A.Nonempty
  · simp [foldRecord, h, add_edges_from, cliqueNodes, Finset.union_assoc]
  · rw [Finset.not_nonempty_iff_eq_empty] at h
    subst h
    simp [foldRecord, cliqueNodes_empty]

lemma recordEdges_eq {raw : RawData} {A : Finset (List Char)}
    (h : parse_authors_from_comments raw = .ok A) :
    recordEdges raw = cliqueEdges A := by
  unfold recordEdges
  rw [h]
  by_cases hA : A.Nonempty
  · simp [hA]
  · rw [Finset.not_nonempty_iff_eq_empty] at hA
    subst hA
    simp [cliqueEdges_empty]

lemma recordNodes_eq {raw : RawData} {A : Finset (List Char)}
    (h : parse_authors_from_comments raw = .ok A) :
    recordNodes raw = cliqueNodes A := by
  unfold recordNodes
  rw [h]
  by_cases hA : A.Nonempty
  · simp [hA]
  · rw [Finset.not_nonempty_iff_eq_empty] at hA
    subst hA
    simp [cliqueNodes_empty]

lemma mem_bigEdges {files : List RawData} {e : Sym2 (List Char)} :
    e ∈ bigEdges files ↔ ∃ raw ∈ files, e ∈ recordEdges raw := by
  induction files with
  | nil => simp [bigEdges]
  | cons raw files ih =>
    rw [show bigEdges (raw :: files) = recordEdges raw ∪ bigEdges files
      from rfl, Finset.mem_union, ih]
    simp only [List.mem_cons]
    constructor
    · rintro (h | ⟨r, hr, he⟩)
      · exact ⟨raw, Or.inl rfl, h⟩
      · exact ⟨r, Or.inr hr, he⟩
    · rintro ⟨r, rfl | hr, he⟩
      · exact Or.inl he
      · exact Or.inr ⟨r, hr, he⟩

lemma mem_bigNodes {files : List RawData} {v : List Char} :
    v ∈ bigNodes files ↔ ∃ raw ∈ files, v ∈ recordNodes raw := by
  induction files with
  | nil => simp [bigNodes]
  | cons raw files ih =>
    rw [show bigNodes (raw :: files) = recordNodes raw ∪ bigNodes files
      from rfl, Finset.mem_union, ih]
    simp only [List.mem_cons]
    constructor
    · rintro (h | ⟨r, hr, he⟩)
      · exact ⟨raw, Or.inl rfl, h⟩
      · exact ⟨r, Or.inr hr, he⟩
    · rintro ⟨r, rfl | hr, he⟩
      · exact Or.inl he
      · exact Or.inr ⟨r, hr, he⟩

lemma buildLoop_spec :
    ∀ (files : List RawData) (G0 G : NxGraph), buildLoop G0 files = .ok G →
    G.nodes = G0.nodes ∪ bigNodes files ∧
    G.edges = G0.edges ∪ bigEdges files := by
  intro files
  induction files with
  | nil =>
    intro G0 G h
    simp only [buildLoop, Except.ok.injEq] at h
    subst h
    simp [bigNodes, bigEdges]
  | cons raw files ih =>
    intro G0 G h
    simp only [buildLoop] at h
    cases hp : parse_authors_from_comments raw with
    | error e => rw [hp] at h; exact absurd h (by simp)
    | ok A =>
      rw [hp] at h
      obtain ⟨hn, he⟩ := ih (foldRecord G0 A) G h
      refine ⟨?_, ?_⟩
      · rw [hn, foldRecord_nodes,
          show bigNodes (raw :: files) = recordNodes raw ∪ bigNodes files
            from rfl, recordNodes_eq hp, Finset.union_assoc]
      · rw [he, foldRecord_edges,
          show bigEdges (raw :: files) = recordEdges raw ∪ bigEdges files
            from rfl, recordEdges_eq hp, Finset.union_assoc]

lemma buildLoop_ok_parse :
    ∀ (files : List RawData) (G0 G : NxGraph), buildLoop G0 files = .ok G →
    ∀ raw ∈ files, ∃ A, parse_authors_from_comments raw = .ok A := by
  intro files
  induction files with
  | nil => intro G0 G _ raw hmem; exact absurd hmem (by simp)
  | cons raw files ih =>
    intro G0 G h r hmem
    simp only [buildLoop] at h
    cases hp : parse_authors_from_comments raw with
    | error e => rw [hp] at h; exact absurd h (by simp)
    | ok A =>
      rw [hp] at h
      rcases List.mem_cons.1 hmem with rfl | hmem'
      · exact ⟨A, hp⟩
      · exact ih (foldRecord G0 A) G h r hmem'

lemma buildLoop_ok_exists :
    ∀ (files : List RawData),
    (∀ raw ∈ files, ∃ A, parse_authors_from_comments raw = .ok A) →
    ∀ G0, ∃ G, buildLoop G0 files = .ok G := by
  intro files
  induction files with
  | nil => exact fun _ G0 => ⟨G0, rfl⟩
  | cons raw files ih =>
    intro h G0
    obtain ⟨A, hA⟩ := h raw (List.mem_cons_self raw files)
    obtain ⟨G, hG⟩ := ih (fun r hr => h r (List.mem_cons_of_mem raw hr))
      (foldRecord G0 A)
    exact ⟨G, by simp only [buildLoop, hA]; exact hG⟩

lemma mem_recordEdges {raw : RawData} {e : Sym2 (List Char)} :
    e ∈ recordEdges raw ↔
    ∃ A, parse_authors_from_comments raw = .ok A ∧ e ∈ cliqueEdges A := by
  cases hp : parse_authors_from_comments raw with
  | error er =>
    rw [show recordEdges raw = ∅ by unfold recordEdges; rw [hp]]
    simp [hp]
  | ok A =>
    rw [recordEdges_eq hp]
    constructor
    · exact fun h => ⟨A, rfl, h⟩
    · rintro ⟨A', hA', h⟩
      obtain rfl := Except.ok.inj hA'
      exact h

lemma mem_recordNodes {raw : RawData} {v : List Char} :
    v ∈ recordNodes raw ↔
    ∃ A, parse_authors_from_comments raw = .ok A ∧ v ∈ cliqueNodes A := by
  cases hp : parse_authors_from_comments raw with
  | error er =>
    rw [show recordNodes raw = ∅ by unfold recordNodes; rw [hp]]
    simp [hp]
  | ok A =>
    rw [recordNodes_eq hp]
    constructor
    · exact fun h => ⟨A, rfl, h⟩
    · rintro ⟨A', hA', h⟩
      obtain rfl := Except.ok.inj hA'
      exact h

lemma bigEdges_perm {files files' : List RawData} (h : files.Perm files') :
    bigEdges files = bigEdges files' := by
  ext e
  rw [mem_bigEdges, mem_bigEdges]
  constructor <;> rintro ⟨raw, hr, he⟩
  · exact ⟨raw, h.mem_iff.1 hr, he⟩
  · exact ⟨raw, h.mem_iff.2 hr, he⟩

lemma bigNodes_perm {files files' : List RawData} (h : files.Perm files') :
    bigNodes files = bigNodes files' := by
  ext v
  rw [mem_bigNodes, mem_bigNodes]
  constructor <;> rintro ⟨raw, hr, he⟩
  · exact ⟨raw, h.mem_iff.1 hr, he⟩
  · exact ⟨raw, h.mem_iff.2 hr, he⟩

lemma combinations2_singleton (a : List Char) :
    combinations2 {a} = ∅ := by
  ext p
  rw [mem_combinations2]
  simp only [Finset.mem_singleton, Finset.not_mem_empty, iff_false]
  rintro ⟨rfl, h2, hne⟩
  exact hne h2.symm

lemma add_edges_from_empty (G : NxGraph) :
    add_edges_from G ∅ = G := by
  cases G
  simp [add_edges_from]

/-! Auxiliary lemmas about the pattern matcher and the comma-space split. -/

lemma lazyRun_spec (look : List Char → Bool) :
    ∀ (rest : List Char) (need : Nat) (l : List Char),
    lazyRun look need rest = some l →
    need ≤ l.length ∧ (∀ x ∈ l, inClass x = true) ∧
    ∃ rest', rest = l ++ rest' ∧ look rest' = true := by
  intro rest
  induction rest with
  | nil =>
    intro need l h
    cases need with
    | zero =>
      simp only [lazyRun] at h
      cases hlook : look [] with
      | false => rw [hlook] at h; simp at h
      | true =>
        rw [hlook, if_pos rfl] at h
        obtain rfl := Option.some.inj h
        exact ⟨Nat.le_refl 0, by simp, [], rfl, hlook⟩
    | succ k =>
      simp only [lazyRun] at h
      exact absurd h (by simp)
  | cons c rs ih =>
    intro need l h
    cases need with
    | succ k =>
      simp only [lazyRun] at h
      cases hin : inClass c with
      | false => rw [hin] at h; simp at h
      | true =>
        rw [hin, if_pos rfl] at h
        obtain ⟨l', hl', rfl⟩ := Option.map_eq_some'.1 h
        obtain ⟨hlen, hcls, rest', hrs, hlook⟩ := ih k l' hl'
        refine ⟨Nat.succ_le_succ hlen, ?_, rest', by simp [hrs], hlook⟩
        intro x hx
        rcases List.mem_cons.1 hx with rfl | hx
        · exact hin
        · exact hcls x hx
    | zero =>
      simp only [lazyRun] at h
      cases hlook : look (c :: rs) with
      | true =>
        rw [hlook, if_pos rfl] at h
        obtain rfl := Option.some.inj h
        exact ⟨Nat.zero_le _, by simp, c :: rs, rfl, hlook⟩
      | false =>
        rw [hlook, if_neg (by simp)] at h
        cases hin : inClass c with
        | false => rw [hin] at h; simp at h
        | true =>
          rw [hin, if_pos rfl] at h
          obtain ⟨l', hl', rfl⟩ := Option.map_eq_some'.1 h
          obtain ⟨hlen, hcls, rest', hrs, hlook'⟩ := ih 0 l' hl'
          refine ⟨Nat.zero_le _, ?_, rest', by simp [hrs], hlook'⟩
          intro x hx
          rcases List.mem_cons.1 hx with rfl | hx
          · exact hin
          · exact hcls x hx

lemma lookUnd_inv {l : List Char} (h : lookUnd l = true) :
    ∃ t, l = '_' :: t := by
  cases l with
  | nil => simp [lookUnd] at h
  | cons c t =>
    simp only [lookUnd] at h
    have hc := of_decide_eq_true h
    subst hc
    exact ⟨t, rfl⟩

lemma lookBrk_inv {l : List Char} (h : lookBrk l = true) :
    ∃ t, l = ']' :: t := by
  cases l with
  | nil => simp [lookBrk] at h
  | cons c t =>
    simp only [lookBrk] at h
    have hc := of_decide_eq_true h
    subst hc
    exact ⟨t, rfl⟩

lemma lookPar_inv {l : List Char} (h : lookPar l = true) :
    ∃ t, l = ',' :: t := by
  cases l with
  | nil => simp [lookPar] at h
  | cons c t =>
    simp only [lookPar] at h
    have hc := of_decide_eq_true h
    subst hc
    exact ⟨t, rfl⟩

lemma lookDash_inv {l : List Char} (h : lookDash l = true) :
    (∃ t, l = ' ' :: '(' :: t) ∨ ∃ t, l = ',' :: ' ' :: t := by
  cases l with
  | nil => simp [lookDash] at h
  | cons c rest =>
    cases rest with
    | nil => simp [lookDash] at h
    | cons d t =>
      simp only [lookDash] at h
      rw [Bool.or_eq_true] at h
      rcases h with h' | h' <;>
        (rw [Bool.and_eq_true] at h'; obtain ⟨h1, h2⟩ := h')
      · have hc := of_decide_eq_true h1
        have hd := of_decide_eq_true h2
        subst hc; subst hd
        exact Or.inl ⟨t, rfl⟩
      · have hc := of_decide_eq_true h1
        have hd := of_decide_eq_true h2
        subst hc; subst hd
        exact Or.inr ⟨t, rfl⟩

lemma tryBody_spec {look : List Char → Bool} {rest : List Char}
    {mc : Char} {body : List Char}
    (h : tryBody look rest = some (mc, body)) :
    isUpper mc = true ∧ 2 ≤ body.length ∧ (∀ x ∈ body, inClass x = true) ∧
    ∃ rest', rest = mc :: (body ++ rest') ∧ look rest' = true := by
  cases rest with
  | nil => simp [tryBody] at h
  | cons c rs =>
    simp only [tryBody] at h
    cases hcond : (isUpper c && negLookEq rs) with
    | false => rw [hcond] at h; simp at h
    | true =>
      rw [hcond, if_pos rfl] at h
      obtain ⟨b', hb', hpair⟩ := Option.map_eq_some'.1 h
      injection hpair with h1 h2
      subst h1; subst h2
      rw [Bool.and_eq_true] at hcond
      obtain ⟨hlen, hcls, rest', hrs, hlook⟩ := lazyRun_spec look rs 2 b' hb'
      exact ⟨hcond.1, hlen, hcls, rest', by rw [hrs], hlook⟩

lemma matchAt_spec {prev rest : List Char} {mc : Char} {body : List Char}
    (h : matchAt prev rest = some (mc, body)) :
    isUpper mc = true ∧ 2 ≤ body.length ∧ (∀ x ∈ body, inClass x = true) ∧
    ∃ rest', rest = mc :: (body ++ rest') ∧
      contextEnds prev.reverse rest' := by
  unfold matchAt at h
  split at h
  · rename_i q
    obtain ⟨hup, hlen, hcls, rest', hrs, hlook⟩ := tryBody_spec h
    exact ⟨hup, hlen, hcls, rest', hrs,
      Or.inl ⟨⟨q.reverse, by simp⟩, lookUnd_inv hlook⟩⟩
  · rename_i q
    obtain ⟨hup, hlen, hcls, rest', hrs, hlook⟩ := tryBody_spec h
    exact ⟨hup, hlen, hcls, rest', hrs,
      Or.inr (Or.inl ⟨⟨q.reverse, by simp⟩, lookBrk_inv hlook⟩)⟩
  · rename_i q
    obtain ⟨hup, hlen, hcls, rest', hrs, hlook⟩ := tryBody_spec h
    exact ⟨hup, hlen, hcls, rest', hrs,
      Or.inr (Or.inr (Or.inl ⟨⟨q.reverse, by simp⟩, lookDash_inv hlook⟩))⟩
  · rename_i q
    obtain ⟨hup, hlen, hcls, rest', hrs, hlook⟩ := tryBody_spec h
    exact ⟨hup, hlen, hcls, rest', hrs,
      Or.inr (Or.inr (Or.inr ⟨⟨q.reverse, by simp⟩, lookPar_inv hlook⟩))⟩
  · exact absurd h (by simp)

lemma matchAt_none_of_not_upper (c : Char) (h : isUpper c = false) :
    ∀ (prev rs : List Char), matchAt prev (c :: rs) = none := by
  intro prev rs
  have ht : ∀ look, tryBody look (c :: rs) = none := by
    intro look
    simp [tryBody, h]
  unfold matchAt
  split <;> simp [ht]

lemma findallAux_sound :
    ∀ (fuel : Nat) (prev rest m : List Char),
    m ∈ findallAux fuel prev rest →
    ∃ pre post, prev.reverse ++ rest = pre ++ m ++ post ∧ tokenShape m ∧
      contextEnds pre post := by
  intro fuel
  induction fuel with
  | zero => intro prev rest m h; simp [findallAux] at h
  | succ fuel ih =>
    intro prev rest m h
    cases rest with
    | nil => simp [findallAux] at h
    | cons c rs =>
      simp only [findallAux] at h
      cases hm : matchAt prev (c :: rs) with
      | none =>
        rw [hm] at h
        obtain ⟨pre, post, heq, hsh, hctx⟩ := ih (c :: prev) rs m h
        refine ⟨pre, post, ?_, hsh, hctx⟩
        rw [← heq]
        simp
      | some pair =>
        obtain ⟨mc, body⟩ := pair
        rw [hm] at h
        obtain ⟨hup, hlen, hcls, rest', hrs, hctx'⟩ := matchAt_spec hm
        injection hrs with hc hrs'
        subst hc
        rcases List.mem_cons.1 h with rfl | h'
        · refine ⟨prev.reverse, rest', ?_,
            ⟨c, body, rfl, hup, hlen, hcls⟩, hctx'⟩
          rw [hrs']
          simp
        · have hdrop : rs.drop body.length = rest' := by
            rw [hrs']
            exact List.drop_left body rest'
          rw [hdrop] at h'
          obtain ⟨pre, post, heq, hsh, hctx⟩ :=
            ih ((c :: body).reverse ++ prev) rest' m h'
          refine ⟨pre, post, ?_, hsh, hctx⟩
          rw [← heq, hrs']
          simp

lemma hasCS_cons_false {c d : Char} {rs : List Char}
    (h : hasCS (c :: d :: rs) = false) :
    ¬(c = ',' ∧ d = ' ') ∧ hasCS (d :: rs) = false := by
  simp only [hasCS, Bool.or_eq_false_iff, Bool.and_eq_false_iff,
    decide_eq_false_iff_not] at h
  constructor
  · rintro ⟨rfl, rfl⟩
    rcases h.1 with h' | h' <;> exact h' rfl
  · exact h.2

lemma splitCS_sep :
    ∀ (a : List Char), hasCS a = false → ∀ (acc b : List Char),
    splitCS acc (a ++ ',' :: ' ' :: b) =
      (acc.reverse ++ a) :: splitCS [] b := by
  intro a
  induction a with
  | nil =>
    intro _ acc b
    simp [splitCS]
  | cons c a' ih =>
    intro hn acc b
    cases a' with
    | nil =>
      show splitCS acc (c :: ',' :: ' ' :: b) = (acc.reverse ++ [c]) :: _
      rw [splitCS, if_neg (by rintro ⟨-, h⟩; exact absurd h (by decide)),
        splitCS, if_pos ⟨rfl, rfl⟩]
      simp
    | cons d a'' =>
      obtain ⟨h1, h2⟩ := hasCS_cons_false hn
      show splitCS acc (c :: d :: (a'' ++ ',' :: ' ' :: b)) = _
      rw [splitCS, if_neg h1]
      have := ih h2 (c :: acc) b
      rw [show (d :: a'') ++ ',' :: ' ' :: b = d :: (a'' ++ ',' :: ' ' :: b)
        from rfl] at this
      rw [this]
      simp

/-! Theorems settling the claims. -/

/-- C1: for every directory of records on which the builder returns a
graph, that graph contains an edge `{a, b}` (with `a ≠ b`) if and only if
at least one record in the directory has an extracted author set
containing both `a` and `b`; and no edge ever pairs an author with
itself. -/
theorem c1_edge_iff_shared_record (files : List RawData) (G : NxGraph)
    (h : build_graph_from_directory files = .ok G) :
    (∀ a b : List Char, a ≠ b →
      (s(a, b) ∈ G.edges ↔ ∃ raw ∈ files, ∃ A,
        parse_authors_from_comments raw = .ok A ∧ a ∈ A ∧ b ∈ A)) ∧
    ∀ a : List Char, s(a, a) ∉ G.edges := by
  obtain ⟨-, he⟩ := buildLoop_spec files NxGraph.empty G h
  simp only [NxGraph.empty, Finset.empty_union] at he
  constructor
  · intro a b hab
    rw [he, mem_bigEdges]
    constructor
    · rintro ⟨raw, hraw, hre⟩
      obtain ⟨A, hA, hcl⟩ := mem_recordEdges.1 hre
      obtain ⟨ha, hb, -⟩ := mem_cliqueEdges.1 hcl
      exact ⟨raw, hraw, A, hA, ha, hb⟩
    · rintro ⟨raw, hraw, A, hA, ha, hb⟩
      exact ⟨raw, hraw, mem_recordEdges.2 ⟨A, hA, mem_cliqueEdges.2 ⟨ha, hb, hab⟩⟩⟩
  · intro a hmem
    rw [he, mem_bigEdges] at hmem
    obtain ⟨raw, -, hre⟩ := hmem
    obtain ⟨A, -, hcl⟩ := mem_recordEdges.1 hre
    exact (mem_cliqueEdges.1 hcl).2.2 rfl

/-- Witness for C1: on the single record whose comment is `"_Ab, Cd_"`,
the builder succeeds and the edge between the two extracted authors is
characterised by the theorem. -/
theorem c1_witness :
    s(['A', 'b'], ['C', 'd']) ∈
      (NxGraph.mk {['A', 'b'], ['C', 'd']} {s(['A', 'b'], ['C', 'd'])}).edges ↔
    ∃ raw ∈ [RawData.mk
      (some [ResultEntry.mk (some [['_', 'A', 'b', ',', ' ', 'C', 'd', '_']])])],
      ∃ A, parse_authors_from_comments raw = .ok A ∧
        ['A', 'b'] ∈ A ∧ ['C', 'd'] ∈ A :=
  (c1_edge_iff_shared_record _ _ (by decide)).1 _ _ (by decide)

/-- C2: for every directory of records on which the builder returns a
graph, a node is in that graph if and only if some record's extracted
author set contains it together with at least one other author; and a
record yielding exactly one author contributes no node and no edge
(folding it leaves the graph unchanged). -/
theorem c2_node_iff_coauthor (files : List RawData) (G : NxGraph)
    (h : build_graph_from_directory files = .ok G) :
    (∀ v : List Char,
      v ∈ G.nodes ↔ ∃ raw ∈ files, ∃ A,
        parse_authors_from_comments raw = .ok A ∧ v ∈ A ∧ ∃ w ∈ A, w ≠ v) ∧
    ∀ (G' : NxGraph) (A : Finset (List Char)), A.card = 1 →
      foldRecord G' A = G' := by
  obtain ⟨hn, -⟩ := buildLoop_spec files NxGraph.empty G h
  simp only [NxGraph.empty, Finset.empty_union] at hn
  constructor
  · intro v
    rw [hn, mem_bigNodes]
    constructor
    · rintro ⟨raw, hraw, hre⟩
      obtain ⟨A, hA, hcl⟩ := mem_recordNodes.1 hre
      obtain ⟨hv, w, hw, hwv⟩ := mem_cliqueNodes.1 hcl
      exact ⟨raw, hraw, A, hA, hv, w, hw, hwv⟩
    · rintro ⟨raw, hraw, A, hA, hv, w, hw, hwv⟩
      exact ⟨raw, hraw,
        mem_recordNodes.2 ⟨A, hA, mem_cliqueNodes.2 ⟨hv, w, hw, hwv⟩⟩⟩
  · intro G' A hA
    obtain ⟨a, rfl⟩ := Finset.card_eq_one.1 hA
    rw [foldRecord, if_pos (Finset.singleton_nonempty a),
      combinations2_singleton, add_edges_from_empty]

/-- Witness for C2: in the graph built from the records
`"_Ab, Cd_"` (two co-occurring authors) and `"_Alice Example_ rocks."`
(a single author), the author `"Ab"` is a node, with `"Cd"` as the
co-author the theorem demands, while folding a singleton author set is a
no-op. -/
theorem c2_witness :
    (['A', 'b'] ∈
      (NxGraph.mk {['A', 'b'], ['C', 'd']} {s(['A', 'b'], ['C', 'd'])}).nodes ↔
    ∃ raw ∈ [RawData.mk
        (some [ResultEntry.mk (some [['_', 'A', 'b', ',', ' ', 'C', 'd', '_']])]),
      RawData.mk (some [ResultEntry.mk (some [['_', 'A', 'l', 'i', 'c', 'e',
        ' ', 'E', 'x', 'a', 'm', 'p', 'l', 'e', '_', ' ', 'r', 'o', 'c',
        'k', 's', '.']])])],
      ∃ A, parse_authors_from_comments raw = .ok A ∧
        ['A', 'b'] ∈ A ∧ ∃ w ∈ A, w ≠ ['A', 'b']) ∧
    foldRecord (NxGraph.mk ∅ ∅) {['X', 'y']} = NxGraph.mk ∅ ∅ :=
  ⟨(c2_node_iff_coauthor _ _ (by decide)).1 _,
    (c2_node_iff_coauthor [] (NxGraph.mk ∅ ∅) rfl).2 _ _ (by decide)⟩

/-- C4: folding a record whose extracted author set has size `k` into the
graph unions in exactly the `C(k, 2)` unordered pairs over that set (and
its members as nodes) when `k ≥ 2`, and changes nothing — no edge, no
node — when `k < 2`. -/
theorem c4_clique_contribution (G : NxGraph) (A : Finset (List Char)) :
    (2 ≤ A.card →
      (foldRecord G A).edges = G.edges ∪ cliqueEdges A ∧
      (foldRecord G A).nodes = G.nodes ∪ A ∧
      (cliqueEdges A).card = A.card.choose 2 ∧
      ∀ e : Sym2 (List Char),
        e ∈ cliqueEdges A ↔ ∃ a ∈ A, ∃ b ∈ A, a ≠ b ∧ e = s(a, b)) ∧
    (A.card < 2 → foldRecord G A = G) := by
  constructor
  · intro hcard
    refine ⟨foldRecord_edges G A, ?_, cliqueEdges_card A, ?_⟩
    · rw [foldRecord_nodes]
      congr 1
      ext v
      rw [mem_cliqueNodes]
      constructor
      · exact fun hv => hv.1
      · intro hv
        obtain ⟨w, hw, hwv⟩ := Finset.exists_ne_of_one_lt_card
          (lt_of_lt_of_le one_lt_two hcard) v
        exact ⟨hv, w, hw, hwv⟩
    · intro e
      induction e using Sym2.inductionOn with
      | hf a b =>
        rw [mem_cliqueEdges]
        constructor
        · rintro ⟨ha, hb, hab⟩
          exact ⟨a, ha, b, hb, hab, rfl⟩
        · rintro ⟨x, hx, y, hy, hxy, he⟩
          rcases Sym2.mk_eq_mk_iff.1 he with hh | hh
          · injection hh with h1 h2
            subst h1; subst h2
            exact ⟨hx, hy, hxy⟩
          · injection hh with h1 h2
            subst h1; subst h2
            exact ⟨hy, hx, Ne.symm hxy⟩
  · intro hcard
    interval_cases h : A.card
    · rw [foldRecord, if_neg]
      rw [Finset.not_nonempty_iff_eq_empty]
      exact Finset.card_eq_zero.1 h
    · obtain ⟨a, rfl⟩ := Finset.card_eq_one.1 h
      rw [foldRecord, if_pos (Finset.singleton_nonempty a),
        combinations2_singleton, add_edges_from_empty]

/-- Witness for C4: the two-author set `{"Ab", "Cd"}` contributes exactly
`C(2, 2) = 1` edge. -/
theorem c4_witness :
    (cliqueEdges {['A', 'b'], ['C', 'd']}).card =
      ({['A', 'b'], ['C', 'd']} : Finset (List Char)).card.choose 2 :=
  ((c4_clique_contribution (NxGraph.mk ∅ ∅) _).1 (by decide)).2.2.1

/-- C5: for every directory of records on which the builder returns a
graph, the node and edge sets of that graph equal the unions of the
per-file clique node and edge sets (re-added nodes and edges collapsing in
the union), and every permutation of the processing order yields a graph
with the same node and edge sets. -/
theorem c5_union_law_order_invariant (files : List RawData) (G : NxGraph)
    (h : build_graph_from_directory files = .ok G) :
    G.nodes = bigNodes files ∧ G.edges = bigEdges files ∧
    ∀ files' : List RawData, files.Perm files' →
      ∃ G', build_graph_from_directory files' = .ok G' ∧
        G'.nodes = G.nodes ∧ G'.edges = G.edges := by
  obtain ⟨hn, he⟩ := buildLoop_spec files NxGraph.empty G h
  simp only [NxGraph.empty, Finset.empty_union] at hn he
  refine ⟨hn, he, ?_⟩
  intro files' hperm
  have hok : ∀ raw ∈ files', ∃ A, parse_authors_from_comments raw = .ok A :=
    fun raw hr =>
      buildLoop_ok_parse files NxGraph.empty G h raw (hperm.mem_iff.2 hr)
  obtain ⟨G', hG'⟩ := buildLoop_ok_exists files' hok NxGraph.empty
  obtain ⟨hn', he'⟩ := buildLoop_spec files' NxGraph.empty G' hG'
  simp only [NxGraph.empty, Finset.empty_union] at hn' he'
  exact ⟨G', hG',
    by rw [hn', hn, bigNodes_perm hperm],
    by rw [he', he, bigEdges_perm hperm]⟩

/-- Witness for C5: the graph built from the record `"_Ab, Cd_"` followed
by the record `"_Ef, Gh_"` has exactly the union of the two per-record
clique node and edge sets. -/
theorem c5_witness :
    (NxGraph.mk {['A', 'b'], ['C', 'd'], ['E', 'f'], ['G', 'h']}
        {s(['A', 'b'], ['C', 'd']), s(['E', 'f'], ['G', 'h'])}).nodes =
      bigNodes [RawData.mk
          (some [ResultEntry.mk (some [['_', 'A', 'b', ',', ' ', 'C', 'd', '_']])]),
        RawData.mk
          (some [ResultEntry.mk (some [['_', 'E', 'f', ',', ' ', 'G', 'h', '_']])])] ∧
    (NxGraph.mk {['A', 'b'], ['C', 'd'], ['E', 'f'], ['G', 'h']}
        {s(['A', 'b'], ['C', 'd']), s(['E', 'f'], ['G', 'h'])}).edges =
      bigEdges [RawData.mk
          (some [ResultEntry.mk (some [['_', 'A', 'b', ',', ' ', 'C', 'd', '_']])]),
        RawData.mk
          (some [ResultEntry.mk (some [['_', 'E', 'f', ',', ' ', 'G', 'h', '_']])])] :=
  ⟨(c5_union_law_order_invariant _ _ (by decide)).1,
    (c5_union_law_order_invariant _ _ (by decide)).2.1⟩

/-- C3 counterexample: the claim says a record with an absent `results`
key yields an empty extraction result without failing, but on such a
record the unguarded `raw_data.get('results')[0]` subscripts `None` and
raises a `TypeError`. -/
theorem c3_counterexample :
    parse_authors_from_comments (RawData.mk none) = .error PyError.typeError ∧
    parse_authors_from_comments (RawData.mk none) ≠ .ok ∅ :=
  ⟨rfl, by decide⟩

/-- C3 (amended): a record whose first `results` entry lacks the
`comment` key yields an empty result without error, but a record lacking
the `results` key fails with a `TypeError` (`None` subscripted) instead
of being treated as "no authors". -/
theorem c3_missing_key_behaviour :
    (∀ rest : List ResultEntry,
      parse_authors_from_comments
        (RawData.mk (some (ResultEntry.mk none :: rest))) = .ok ∅) ∧
    ∀ raw : RawData, raw.results = none →
      parse_authors_from_comments raw = .error PyError.typeError := by
  constructor
  · intro rest
    rfl
  · intro raw h
    cases raw with
    | mk r => cases h; rfl

/-- Witness for C3 (amended): one record without a `comment` key parses
to the empty author set, and one record without a `results` key raises. -/
theorem c3_witness :
    parse_authors_from_comments
      (RawData.mk (some [ResultEntry.mk none])) = .ok ∅ ∧
    parse_authors_from_comments (RawData.mk none) =
      .error PyError.typeError :=
  ⟨c3_missing_key_behaviour.1 [], c3_missing_key_behaviour.2 (RawData.mk none) rfl⟩

/-- C10: for every record document whose `results` key is present but
maps to an empty list, the unguarded `raw_data.get('results')[0]` fails
with an `IndexError` instead of returning an empty author set. -/
theorem c10_empty_results_index_error (raw : RawData)
    (h : raw.results = some []) :
    parse_authors_from_comments raw = .error PyError.indexError := by
  cases raw with
  | mk r => cases h; rfl

/-- Witness for C10 at the record `{"results": []}`. -/
theorem c10_witness :
    parse_authors_from_comments (RawData.mk (some [])) =
      .error PyError.indexError :=
  c10_empty_results_index_error _ rfl

/-- C9: for every file store and every path it cannot open, `load_json`
terminates the process with a non-zero exit status — the `except OSError:`
handler itself raises `UnboundLocalError` (its `print` reads the
never-assigned local `file`), nothing catches the chain, and the
interpreter aborts with status 1 — and the diagnostic it prints, the
traceback chain, names the offending path through the chained
`OSError`. -/
theorem c9_fatal_load_nonzero_exit_names_path
    (fs : List Char → Option RawData) (file_path : List Char)
    (h : fs file_path = none) :
    (∃ n, exitStatus (load_json fs file_path) = some n ∧ n ≠ 0) ∧
    ∃ chain, load_json fs file_path = .unhandled chain ∧
      ∃ e ∈ chain, namesPath e file_path = true := by
  unfold load_json
  rw [h]
  refine ⟨⟨1, rfl, one_ne_zero⟩,
    [.osError file_path, .unboundLocalError], rfl,
    .osError file_path, List.mem_cons_self .., ?_⟩
  simp [namesPath]

/-- Witness for C9: loading `"data/x.json"` from a store with no readable
files exits with status 1 and the printed exception chain names the
path. -/
theorem c9_witness :
    (∃ n, exitStatus (load_json (fun _ => none)
      ['d', 'a', 't', 'a', '/', 'x', '.', 'j', 's', 'o', 'n']) =
        some n ∧ n ≠ 0) ∧
    ∃ chain, load_json (fun _ => none)
      ['d', 'a', 't', 'a', '/', 'x', '.', 'j', 's', 'o', 'n'] =
        .unhandled chain ∧
      ∃ e ∈ chain, namesPath e
        ['d', 'a', 't', 'a', '/', 'x', '.', 'j', 's', 'o', 'n'] = true :=
  c9_fatal_load_nonzero_exit_names_path _ _ rfl

/-- C6: decoding any node/link document that encodes a well-formed
collaboration graph `G` — whatever the order of its node and link lists,
with either orientation per edge and duplicates allowed — reconstructs a
graph with exactly the node set and the edge set of `G`. (Codec modelled
from the spec, the networkx codec functions not being part of the
repository.) -/
theorem c6_codec_round_trip (G : NxGraph) (hWF : WFgraph G)
    (d : NodeLinkDoc) (hd : encodes G d) :
    (node_link_graph d).nodes = G.nodes ∧
    (node_link_graph d).edges = G.edges := by
  obtain ⟨hnodes, hlinks⟩ := hd
  refine ⟨?_, hlinks⟩
  have hfst : (d.links.map Prod.fst).toFinset ⊆ G.nodes := by
    intro x hx
    rw [List.mem_toFinset, List.mem_map] at hx
    obtain ⟨p, hp, rfl⟩ := hx
    have hmem : Sym2.mk p ∈ G.edges := by
      rw [← hlinks, List.mem_toFinset, List.mem_map]
      exact ⟨p, hp, rfl⟩
    exact (hWF p.1 p.2 hmem).1
  have hsnd : (d.links.map Prod.snd).toFinset ⊆ G.nodes := by
    intro x hx
    rw [List.mem_toFinset, List.mem_map] at hx
    obtain ⟨p, hp, rfl⟩ := hx
    have hmem : Sym2.mk p ∈ G.edges := by
      rw [← hlinks, List.mem_toFinset, List.mem_map]
      exact ⟨p, hp, rfl⟩
    exact (hWF p.1 p.2 hmem).2
  show d.nodes.toFinset ∪ (d.links.map Prod.fst).toFinset ∪
    (d.links.map Prod.snd).toFinset = G.nodes
  rw [hnodes, Finset.union_eq_left.mpr hfst, Finset.union_eq_left.mpr hsnd]

/-- Witness for C6: a document listing the nodes out of order (one
duplicated) and the single edge in swapped orientation decodes back to
the encoded two-author graph. -/
theorem c6_witness :
    (node_link_graph (NodeLinkDoc.mk
        [['C', 'd'], ['A', 'b'], ['C', 'd']]
        [(['C', 'd'], ['A', 'b'])])).nodes =
      (NxGraph.mk {['A', 'b'], ['C', 'd']} {s(['A', 'b'], ['C', 'd'])}).nodes ∧
    (node_link_graph (NodeLinkDoc.mk
        [['C', 'd'], ['A', 'b'], ['C', 'd']]
        [(['C', 'd'], ['A', 'b'])])).edges =
      (NxGraph.mk {['A', 'b'], ['C', 'd']} {s(['A', 'b'], ['C', 'd'])}).edges :=
  c6_codec_round_trip _
    (by
      intro u v h
      rw [Finset.mem_singleton] at h
      rcases Sym2.mk_eq_mk_iff.1 h with hh | hh <;>
        injection hh with h1 h2 <;> subst h1 <;> subst h2 <;>
        exact ⟨by decide, by decide⟩)
    _ ⟨by decide, by decide⟩

/-- C7 counterexample: the claim says a qualifying 2-character token in
one of the four contexts is extracted, but `common_pattern` demands at
least two class characters after the uppercase head (`{2,}?`), so the
2-character token `"Ab"` between underscores matches nothing and the
record extracts an empty author set. -/
theorem c7_counterexample :
    pyFindall ['_', 'A', 'b', '_'] = [] ∧
    parse_authors_from_comments
      (RawData.mk (some [ResultEntry.mk (some [['_', 'A', 'b', '_']])])) =
      .ok ∅ :=
  ⟨rfl, rfl⟩

/-- C7 (amended): every extracted match is a token of length at least 3 —
an uppercase letter followed by at least two characters excluding digits
and the defined punctuation/bracket characters — occurring in one of the
four textual contexts; in particular a qualifying 3-character token
between underscores (whose tail is not `=` followed by an uppercase
letter, per the `(?!=[A-Z])` lookahead) is extracted. 2-character tokens
are never extracted (see the counterexample). -/
theorem c7_match_shape_and_context :
    (∀ s m : List Char, m ∈ pyFindall s →
      ∃ pre post, s = pre ++ m ++ post ∧ tokenShape m ∧
        contextEnds pre post) ∧
    (∀ c1 c2 c3 : Char, isUpper c1 = true → inClass c2 = true →
      inClass c3 = true → (c2 == '=' && isUpper c3) = false →
      pyFindall ['_', c1, c2, c3, '_'] = [[c1, c2, c3]]) := by
  constructor
  · intro s m h
    obtain ⟨pre, post, heq, hsh, hctx⟩ := findallAux_sound s.length [] s m h
    exact ⟨pre, post, by simpa using heq, hsh, hctx⟩
  · intro c1 c2 c3 h1 h2 h3 h4
    have e1 : matchAt [] ['_', c1, c2, c3, '_'] = none := rfl
    have e3 : lazyRun lookUnd 2 [c2, c3, '_'] = some [c2, c3] := by
      simp [lazyRun, lookUnd, h2, h3]
    have e2 : matchAt ['_'] [c1, c2, c3, '_'] = some (c1, [c2, c3]) := by
      show tryBody lookUnd [c1, c2, c3, '_'] = some (c1, [c2, c3])
      simp [tryBody, negLookEq, h1, h4, e3]
    have e4 : matchAt [c3, c2, c1, '_'] ['_'] = none :=
      matchAt_none_of_not_upper '_' rfl _ _
    show findallAux 5 [] ['_', c1, c2, c3, '_'] = [[c1, c2, c3]]
    simp [findallAux, e1, e2, e4]

/-- Witness for C7 (amended): the 3-character token `"Abc"` between
underscores is extracted. -/
theorem c7_witness :
    pyFindall ['_', 'A', 'b', 'c', '_'] = [['A', 'b', 'c']] :=
  c7_match_shape_and_context.2 'A' 'b' 'c' rfl rfl rfl rfl

/-- C8 counterexample: the claim says any match containing a comma yields
one author per comma-separated segment, but the match `"Ab,Cd"` (a comma
not followed by a space) is kept whole: the code splits on the
two-character string `', '`, not on the comma. -/
theorem c8_counterexample :
    authorsOfComment ['_', 'A', 'b', ',', 'C', 'd', '_'] =
      [['A', 'b', ',', 'C', 'd']] ∧
    parse_authors_from_comments
      (RawData.mk (some [ResultEntry.mk
        (some [['_', 'A', 'b', ',', 'C', 'd', '_']])])) =
      .ok {['A', 'b', ',', 'C', 'd']} :=
  ⟨rfl, rfl⟩

/-- C8 (amended): the extractor splits each match on the two-character
separator comma-space, adding each resulting segment as an author: for
any match of the form `a ++ ", " ++ b` with `a` separator-free the split
yields `a` followed by the split of the rest, and in particular the match
`"Ab, Cd"` contributes the two authors `"Ab"` and `"Cd"`; a comma not
followed by a space does not separate (see the counterexample). -/
theorem c8_split_on_comma_space :
    (∀ a b : List Char, hasCS a = false →
      splitCS [] (a ++ ',' :: ' ' :: b) = a :: splitCS [] b) ∧
    authorsOfComment ['_', 'A', 'b', ',', ' ', 'C', 'd', '_'] =
      [['A', 'b'], ['C', 'd']] := by
  constructor
  · intro a b hn
    have h := splitCS_sep a hn [] b
    simpa using h
  · rfl

/-- Witness for C8 (amended): splitting the match `"Ab, Cd"` on the
comma-space separator yields the segments `"Ab"` and `"Cd"`. -/
theorem c8_witness :
    splitCS [] (['A', 'b'] ++ ',' :: ' ' :: ['C', 'd']) =
      ['A', 'b'] :: splitCS [] ['C', 'd'] :=
  c8_split_on_comma_space.1 ['A', 'b'] ['C', 'd'] rfl

end Mihalcea
